import Mathlib

/-!
Verification of the ImgViewer repository (src/main.rs) against its
natural-language specification.

The embedding below translates the Rust source into Lean:
* the tiling loop of `LeanViewer::load_assets` (src/main.rs lines 88-113)
  becomes `load_assets_tiles`, over `Nat` (the source uses `u32`);
* the per-frame geometry (`effective_size`, `fit_zoom`, zoom-at-cursor,
  tile placement, src/main.rs lines 217-266) is embedded over `ℚ`
  (the source uses `f32`; the rational model is the exact arithmetic the
  source approximates);
* the viewer state machine (`LeanViewer` fields, the `update` method and
  the `preload` worker) becomes `Viewer`, `updateFrame`, `navigate` and
  `workerLoad`.
-/

/-- A tile's source rectangle, in original-image pixel coordinates:
`egui::Rect::from_min_size(pos2(x, y), vec2(w, h))` from
`LeanViewer::load_assets` (the GPU texture handle is an external
resource and is not modelled). -/
structure Tile where
  x : Nat
  y : Nat
  w : Nat
  h : Nat
deriving DecidableEq

/-- The index sequence of Rust `(0..n).step_by(l)`: `0, l, 2*l, ...`,
strictly below `n`. -/
def stepRange (n l : Nat) : List Nat :=
  (List.range ((n + l - 1) / l)).map (fun i => i * l)

/-- The tiling loop of `LeanViewer::load_assets`: for `y` stepping by the
tile limit over the height (outer loop) and `x` stepping over the width
(inner loop), push a tile at `(x, y)` of size
`min limit (width - x) × min limit (height - y)`. -/
def load_assets_tiles (width height limit : Nat) : List Tile :=
  (stepRange height limit).flatMap (fun y =>
    (stepRange width limit).map (fun x =>
      ⟨x, y, min limit (width - x), min limit (height - y)⟩))

/-- The point `(p, q)` lies inside tile `t`'s source rectangle
`[x, x+w) × [y, y+h)`. -/
def Tile.covers (t : Tile) (p q : Nat) : Prop :=
  t.x ≤ p ∧ p < t.x + t.w ∧ t.y ≤ q ∧ q < t.y + t.h

/-- The effective (rotation-adjusted) size (src/main.rs lines 218-219):
`is_sideways = rotation_steps % 2 != 0`, and when sideways the full
size's components are swapped. Rust's `%` on `i32` is the truncated
remainder; its `!= 0` test agrees with the Euclidean `% 2 ≠ 0` test used
here on every integer. -/
def effective_size (w h : ℚ) (s : ℤ) : ℚ × ℚ :=
  if s % 2 ≠ 0 then (h, w) else (w, h)

/-- The fit zoom (src/main.rs line 221):
`(display_rect.width() / effective_size.x).min(display_rect.height() / effective_size.y)`. -/
def fit_zoom (dw dh ew eh : ℚ) : ℚ :=
  min (dw / ew) (dh / eh)

/-- Rotation of a vector by `rotation_steps` quarter turns:
`egui::emath::Rot2::from_angle(rotation_steps * FRAC_PI_2) * v`
(src/main.rs lines 256-257, 264). Over `ℚ` the quarter-turn rotation
matrices are exact: `cos, sin` of `k * π/2` are `0, ±1`. -/
def rot2 (s : ℤ) (v : ℚ × ℚ) : ℚ × ℚ :=
  if s % 4 = 0 then v
  else if s % 4 = 1 then (-v.2, v.1)
  else if s % 4 = 2 then (-v.1, -v.2)
  else (v.2, -v.1)

/-- Screen position of the source-space point `q` under the per-frame
tile placement (src/main.rs lines 255-266): with
`center = display_rect.center() + offset`, a tile centred at source
point `q` is drawn at `center + (rot * (q - full_size / 2)) * zoom`. -/
def screenOf (offset : ℚ × ℚ) (zoom : ℚ) (s : ℤ) (dc fs q : ℚ × ℚ) : ℚ × ℚ :=
  dc + offset + zoom • rot2 s (q - (1 / 2 : ℚ) • fs)

/-- The scroll-zoom mutation (src/main.rs lines 238-244): zoom is
multiplied by the factor, and when a pointer position is known the
offset is corrected by
`offset -= (mouse_pos - center) * (zoom_factor - 1.0)` with
`center = display_rect.center() + offset` read before the correction.
Returns the new `(offset, zoom)` pair. -/
def zoom_at (offset : ℚ × ℚ) (zoom : ℚ) (dc p : ℚ × ℚ) (f : ℚ) :
    (ℚ × ℚ) × ℚ :=
  (offset - (f - 1) • (p - (dc + offset)), zoom * f)

/-- The rotate-clockwise key handler (src/main.rs line 210):
`rotation_steps = (rotation_steps + 1) % 4`. Rust's `%` on `i32` is the
truncated remainder, `Int.tmod`. -/
def rotate_cw (s : ℤ) : ℤ := (s + 1).tmod 4

/-- The values `rotation_steps` can reach in the program: it starts at 0
(`LeanViewer::new`), is reset to 0 when a background load is applied
(src/main.rs line 195), and is otherwise only changed by `rotate_cw`. -/
inductive ReachableSteps : ℤ → Prop where
  | init : ReachableSteps 0
  | rotate (s : ℤ) : ReachableSteps s → ReachableSteps (rotate_cw s)
  | reset (s : ℤ) : ReachableSteps s → ReachableSteps 0

/-- A completed background load: the `LoadedImage` struct sent through
the mpsc channel (src/main.rs lines 8-12). -/
structure LoadedImage where
  path : String
  tiles : List Tile
  full_size : ℚ × ℚ

/-- The viewer state: the fields of `struct LeanViewer` (src/main.rs
lines 40-52). The channel endpoints `rx`/`tx` are not state; the message
possibly pending on the channel is a parameter of `updateFrame`. -/
structure Viewer where
  tiles : List Tile
  full_size : ℚ × ℚ
  offset : ℚ × ℚ
  zoom : ℚ
  rotation_steps : ℤ
  first_frame : Bool
  current_path : String
  album : List String
  show_about : Bool

/-- Rust `Iterator::position`: index of the first element satisfying the
test, `none` when there is none. -/
def position (p : α → Bool) : List α → Option Nat
  | [] => none
  | a :: as => if p a then some 0 else (position p as).map (· + 1)

/-- Target path of `LeanViewer::preload` (src/main.rs lines 170-173):
look up the current path's first index in the album; when found, the new
index is `(pos as i32 + delta).rem_euclid(album.len() as i32)` (Rust
`rem_euclid` is the Euclidean remainder, `Int` `%` here) and the target
is `album[new_index]`; the computed index is always in range, so the
`getD` default is never read. When the current path is not found, no
load is started. -/
def preloadTarget (album : List String) (cur : String) (delta : ℤ) :
    Option String :=
  (position (fun p => p == cur) album).map (fun pos =>
    album.getD ((((pos : ℤ) + delta) % (album.length : ℤ)).toNat) "")

/-- The observable effect of `LeanViewer::preload`: it takes `&self`, so
the viewer state is unchanged; a background load of the target path is
spawned exactly when the album lookup succeeds. -/
def navigate (st : Viewer) (delta : ℤ) : Viewer × Option String :=
  (st, preloadTarget st.album st.current_path delta)

/-- The background worker spawned by `preload` (src/main.rs lines
175-183): decode, tile with limit 2048, send the `LoadedImage`.
`decoded` is the result of the external image decode; `none` models a
decode failure, on which the source panics via `expect`, killing only
the worker thread, so nothing is ever sent on the channel and no error
value crosses it. -/
def workerLoad (decoded : Option (Nat × Nat)) (path : String) :
    Option LoadedImage :=
  decoded.map (fun wh =>
    { path := path, tiles := load_assets_tiles wh.1 wh.2 2048,
      full_size := ((wh.1 : ℚ), (wh.2 : ℚ)) })

/-- The non-blocking channel poll at the start of `update` (src/main.rs
lines 190-197): when a completed `LoadedImage` is available it replaces
the tiles, full size and current path, resets offset and rotation to
zero and arms `first_frame`; `zoom` and every other field are
untouched. -/
def applyPoll (st : Viewer) (msg : Option LoadedImage) : Viewer :=
  match msg with
  | none => st
  | some l =>
    { st with
      tiles := l.tiles
      full_size := l.full_size
      current_path := l.path
      offset := 0
      rotation_steps := 0
      first_frame := true }

/-- The fit/100% zoom toggle (src/main.rs lines 229 and 235, identical
for the double-click and the F key): if the current zoom is within 0.01
of the fit zoom, zoom becomes 1.0, otherwise it becomes the fit zoom
(the offset is reset to zero alongside). -/
def toggle_zoom (zoom fz : ℚ) : ℚ :=
  if |zoom - fz| < 1 / 100 then 1 else fz

/-- The input events consumed by one `update` call. -/
structure Input where
  arrowRight : Bool
  arrowLeft : Bool
  keyR : Bool
  keyF : Bool
  doubleClick : Bool
  scrollY : ℚ
  hoverPos : Option (ℚ × ℚ)
  pointerDown : Bool
  pointerDelta : ℚ × ℚ

/-- A frame with no input events. -/
def noInput : Input :=
  { arrowRight := false, arrowLeft := false, keyR := false, keyF := false,
    doubleClick := false, scrollY := 0, hoverPos := none,
    pointerDown := false, pointerDelta := 0 }

/-- One call of `LeanViewer::update` (src/main.rs lines 189-302), in
source order: channel poll; arrow keys spawning preloads; R-key
rotation; fit-zoom application when `first_frame` holds and the display
width exceeds 1; double-click toggle; F-key toggle; scroll zoom at the
cursor (zoom is always multiplied, the offset correction happens only
when a pointer position is known); drag pan. `expFn` stands for the
external exponential used for the scroll factor `(delta * 0.005).exp()`;
`msg` is the message pending on the channel this frame; `dw`, `dh` and
`dc` are the display rect's size and centre. Returns the new state and
the album paths for which a background load was spawned. -/
def updateFrame (expFn : ℚ → ℚ) (st : Viewer) (msg : Option LoadedImage)
    (inp : Input) (dw dh : ℚ) (dc : ℚ × ℚ) : Viewer × List String :=
  let st1 := applyPoll st msg
  let spawns :=
    (if inp.arrowRight then (preloadTarget st1.album st1.current_path 1).toList
      else []) ++
    (if inp.arrowLeft then (preloadTarget st1.album st1.current_path (-1)).toList
      else [])
  let st2 := if inp.keyR then
      { st1 with rotation_steps := rotate_cw st1.rotation_steps } else st1
  let es := effective_size st2.full_size.1 st2.full_size.2 st2.rotation_steps
  let fz := fit_zoom dw dh es.1 es.2
  let st3 := if st2.first_frame ∧ 1 < dw then
      { st2 with zoom := fz, first_frame := false } else st2
  let st4 := if inp.doubleClick then
      { st3 with zoom := toggle_zoom st3.zoom fz, offset := 0 } else st3
  let st5 := if inp.keyF then
      { st4 with zoom := toggle_zoom st4.zoom fz, offset := 0 } else st4
  let st6 := if inp.scrollY ≠ 0 then
      let f := expFn (inp.scrollY * (5 / 1000))
      match inp.hoverPos with
      | some p =>
        { st5 with
          zoom := (zoom_at st5.offset st5.zoom dc p f).2
          offset := (zoom_at st5.offset st5.zoom dc p f).1 }
      | none => { st5 with zoom := st5.zoom * f }
    else st5
  let st7 := if inp.pointerDown then
      { st6 with offset := st6.offset + inp.pointerDelta } else st6
  (st7, spawns)

/-- A concrete viewer state used by witnesses: image 8×8, one quarter
turn, album of three paths, currently showing the middle one. -/
def viewerA : Viewer :=
  { tiles := [⟨0, 0, 8, 8⟩]
    full_size := (8, 8)
    offset := (3, 4)
    zoom := 1
    rotation_steps := 1
    first_frame := false
    current_path := "b.png"
    album := ["a.png", "b.png", "c.png"]
    show_about := false }

/-- A concrete completed background load: a 100×100 image. -/
def loadedA : LoadedImage :=
  { path := "c.png"
    tiles := [⟨0, 0, 100, 100⟩]
    full_size := (100, 100) }

/-- A concrete viewer whose current path is not in its album. -/
def viewerB : Viewer :=
  { viewerA with current_path := "z.png" }

lemma lt_ceil_div_iff {i n l : Nat} (hl : 0 < l) :
    i < (n + l - 1) / l ↔ i * l < n := by
  rw [Nat.lt_iff_add_one_le, Nat.le_div_iff_mul_le hl,
    show (i + 1) * l = i * l + l from by ring]
  generalize i * l = m
  omega

lemma mem_stepRange {n l x : Nat} (hl : 0 < l) :
    x ∈ stepRange n l ↔ l ∣ x ∧ x < n := by
  simp only [stepRange, List.mem_map, List.mem_range]
  constructor
  · rintro ⟨i, hi, rfl⟩
    exact ⟨Dvd.intro i (mul_comm l i), (lt_ceil_div_iff hl).mp hi⟩
  · rintro ⟨⟨i, rfl⟩, hx⟩
    exact ⟨i, (lt_ceil_div_iff hl).mpr (by rwa [mul_comm]), mul_comm i l⟩

/-- One-dimensional core of the partition property: every coordinate
`p < n` lies in exactly one step interval `[x, x + min l (n - x))` with
`x` produced by `(0..n).step_by(l)`. -/
lemma stepRange_exists_unique {n l p : Nat} (hl : 0 < l) (hp : p < n) :
    ∃! x, x ∈ stepRange n l ∧ x ≤ p ∧ p < x + min l (n - x) := by
  have hmod := Nat.div_add_mod p l
  have hmlt : p % l < l := Nat.mod_lt p hl
  refine ⟨l * (p / l), ⟨?_, ?_, ?_⟩, ?_⟩
  · exact (mem_stepRange hl).mpr ⟨Dvd.intro (p / l) rfl,
      lt_of_le_of_lt (by omega) hp⟩
  · omega
  · rcases le_total l (n - l * (p / l)) with hc | hc
    · rw [min_eq_left hc]; omega
    · rw [min_eq_right hc]; omega
  · rintro x ⟨hxmem, hxle, hxlt⟩
    obtain ⟨⟨j, rfl⟩, hxn⟩ := (mem_stepRange hl).mp hxmem
    have hlt : p < l * j + l := lt_of_lt_of_le hxlt (by
      have : min l (n - l * j) ≤ l := min_le_left _ _
      omega)
    have : p / l = j := by
      rw [show l * j = j * l from mul_comm l j] at hxle hlt
      exact Nat.div_eq_of_lt_le hxle (by rw [Nat.succ_mul]; omega)
    rw [this]

lemma mem_load_assets_tiles {W H L : Nat} {t : Tile} :
    t ∈ load_assets_tiles W H L ↔
      ∃ x ∈ stepRange W L, ∃ y ∈ stepRange H L,
        t = ⟨x, y, min L (W - x), min L (H - y)⟩ := by
  simp only [load_assets_tiles, List.mem_flatMap, List.mem_map]
  constructor
  · rintro ⟨y, hy, x, hx, rfl⟩
    exact ⟨x, hx, y, hy, rfl⟩
  · rintro ⟨x, hx, y, hy, rfl⟩
    exact ⟨y, hy, x, hx, rfl⟩

/-- C1: for every image of width `W ≥ 1`, height `H ≥ 1` and tile limit
`L ≥ 1`, the tiles produced by the tiling loop of
`LeanViewer::load_assets` have source rectangles that partition
`[0,W) × [0,H)` exactly: every tile lies inside the image bounds, has
width and height at most `L` (and at least 1), and every pixel of the
image is covered by exactly one tile (no gaps, no overlaps). -/
theorem load_assets_tiles_partition (W H L : Nat)
    (_hW : 1 ≤ W) (_hH : 1 ≤ H) (hL : 1 ≤ L) :
    (∀ t ∈ load_assets_tiles W H L,
        t.w ≤ L ∧ t.h ≤ L ∧ 1 ≤ t.w ∧ 1 ≤ t.h ∧
        t.x + t.w ≤ W ∧ t.y + t.h ≤ H) ∧
    (∀ p q, p < W → q < H →
        ∃! t, t ∈ load_assets_tiles W H L ∧ t.covers p q) := by
  constructor
  · intro t ht
    obtain ⟨x, hx, y, hy, rfl⟩ := mem_load_assets_tiles.mp ht
    obtain ⟨-, hxW⟩ := (mem_stepRange hL).mp hx
    obtain ⟨-, hyH⟩ := (mem_stepRange hL).mp hy
    refine ⟨min_le_left _ _, min_le_left _ _, ?_, ?_, ?_, ?_⟩
    · exact le_min hL (by omega)
    · exact le_min hL (by omega)
    · have : min L (W - x) ≤ W - x := min_le_right _ _
      show x + min L (W - x) ≤ W
      omega
    · have : min L (H - y) ≤ H - y := min_le_right _ _
      show y + min L (H - y) ≤ H
      omega
  · intro p q hp hq
    obtain ⟨x₀, ⟨hx₀mem, hx₀le, hx₀lt⟩, hx₀uniq⟩ :=
      stepRange_exists_unique hL hp
    obtain ⟨y₀, ⟨hy₀mem, hy₀le, hy₀lt⟩, hy₀uniq⟩ :=
      stepRange_exists_unique hL hq
    refine ⟨⟨x₀, y₀, min L (W - x₀), min L (H - y₀)⟩,
      ⟨mem_load_assets_tiles.mpr ⟨x₀, hx₀mem, y₀, hy₀mem, rfl⟩,
        hx₀le, hx₀lt, hy₀le, hy₀lt⟩, ?_⟩
    rintro t ⟨htmem, hcov⟩
    obtain ⟨x, hx, y, hy, rfl⟩ := mem_load_assets_tiles.mp htmem
    obtain ⟨hc1, hc2, hc3, hc4⟩ := hcov
    have hxeq : x = x₀ := hx₀uniq x ⟨hx, hc1, hc2⟩
    have hyeq : y = y₀ := hy₀uniq y ⟨hy, hc3, hc4⟩
    subst hxeq; subst hyeq; rfl

/-- Witness for C1 at the concrete input `W = 3`, `H = 2`, `L = 2`. -/
theorem load_assets_tiles_partition_witness :
    (1 ≤ 3 ∧ 1 ≤ 2 ∧ 1 ≤ 2) ∧
    ((∀ t ∈ load_assets_tiles 3 2 2,
        t.w ≤ 2 ∧ t.h ≤ 2 ∧ 1 ≤ t.w ∧ 1 ≤ t.h ∧
        t.x + t.w ≤ 3 ∧ t.y + t.h ≤ 2) ∧
      (∀ p q, p < 3 → q < 2 →
        ∃! t, t ∈ load_assets_tiles 3 2 2 ∧ t.covers p q)) :=
  ⟨⟨by decide, by decide, by decide⟩,
    load_assets_tiles_partition 3 2 2 (by decide) (by decide) (by decide)⟩

/-- C2: the tiling loop of `LeanViewer::load_assets` produces exactly
`ceil(W/L) * ceil(H/L)` tiles; no tile is zero-sized (in particular an
image exactly divisible by `L` produces none); an image with `W ≤ L` and
`H ≤ L` produces exactly one tile; and a 4000×3000 image with `L = 2048`
produces, in the loop's order, tiles (0,0) 2048×2048, (2048,0)
1952×2048, (0,2048) 2048×952, (2048,2048) 1952×952. -/
theorem load_assets_tiles_count (W H L : Nat)
    (_hW : 1 ≤ W) (_hH : 1 ≤ H) (hL : 1 ≤ L) :
    (load_assets_tiles W H L).length = ((W + L - 1) / L) * ((H + L - 1) / L) ∧
    (∀ t ∈ load_assets_tiles W H L, 1 ≤ t.w ∧ 1 ≤ t.h) ∧
    (W ≤ L → H ≤ L → load_assets_tiles W H L = [⟨0, 0, W, H⟩]) ∧
    load_assets_tiles 4000 3000 2048 =
      [⟨0, 0, 2048, 2048⟩, ⟨2048, 0, 1952, 2048⟩,
        ⟨0, 2048, 2048, 952⟩, ⟨2048, 2048, 1952, 952⟩] := by
  refine ⟨?_, ?_, ?_, ?_⟩
  · simp only [load_assets_tiles, List.length_flatMap, Function.comp_def,
      List.length_map, List.map_const', List.sum_replicate, smul_eq_mul,
      stepRange, List.length_range]
    exact Nat.mul_comm _ _
  · intro t ht
    obtain ⟨x, hx, y, hy, rfl⟩ := mem_load_assets_tiles.mp ht
    obtain ⟨-, hxW⟩ := (mem_stepRange hL).mp hx
    obtain ⟨-, hyH⟩ := (mem_stepRange hL).mp hy
    exact ⟨le_min hL (by omega), le_min hL (by omega)⟩
  · intro hWL hHL
    have hw1 : (W + L - 1) / L = 1 := Nat.div_eq_of_lt_le (by omega) (by omega)
    have hh1 : (H + L - 1) / L = 1 := Nat.div_eq_of_lt_le (by omega) (by omega)
    simp [load_assets_tiles, stepRange, hw1, hh1, List.range_succ, List.range_zero,
      Function.comp_def, min_eq_right hWL, min_eq_right hHL]
  · rfl

/-- Witness for C2 at the concrete input `W = 5`, `H = 3`, `L = 2`. -/
theorem load_assets_tiles_count_witness :
    (1 ≤ 5 ∧ 1 ≤ 3 ∧ 1 ≤ 2) ∧
    ((load_assets_tiles 5 3 2).length = ((5 + 2 - 1) / 2) * ((3 + 2 - 1) / 2) ∧
      (∀ t ∈ load_assets_tiles 5 3 2, 1 ≤ t.w ∧ 1 ≤ t.h) ∧
      (5 ≤ 2 → 3 ≤ 2 → load_assets_tiles 5 3 2 = [⟨0, 0, 5, 3⟩]) ∧
      load_assets_tiles 4000 3000 2048 =
        [⟨0, 0, 2048, 2048⟩, ⟨2048, 0, 1952, 2048⟩,
          ⟨0, 2048, 2048, 952⟩, ⟨2048, 2048, 1952, 952⟩]) :=
  ⟨⟨by decide, by decide, by decide⟩,
    load_assets_tiles_count 5 3 2 (by decide) (by decide) (by decide)⟩

lemma fit_zoom_bounds {dw dh ew eh : ℚ}
    (_hdw : 0 < dw) (_hdh : 0 < dh) (hew : 0 < ew) (heh : 0 < eh) :
    fit_zoom dw dh ew eh * ew ≤ dw ∧ fit_zoom dw dh ew eh * eh ≤ dh ∧
    (fit_zoom dw dh ew eh * ew = dw ∨ fit_zoom dw dh ew eh * eh = dh) := by
  unfold fit_zoom
  rcases min_cases (dw / ew) (dh / eh) with ⟨heq, hle⟩ | ⟨heq, hlt⟩ <;> rw [heq]
  · refine ⟨le_of_eq (div_mul_cancel₀ dw hew.ne'), ?_,
      Or.inl (div_mul_cancel₀ dw hew.ne')⟩
    rw [div_le_div_iff₀ hew heh] at hle
    rw [div_mul_eq_mul_div, div_le_iff₀ hew]
    linarith
  · refine ⟨?_, le_of_eq (div_mul_cancel₀ dh heh.ne'),
      Or.inr (div_mul_cancel₀ dh heh.ne')⟩
    have hle := le_of_lt hlt
    rw [div_le_div_iff₀ heh hew] at hle
    rw [div_mul_eq_mul_div, div_le_iff₀ heh]
    linarith

lemma effective_size_pos {w h : ℚ} (hw : 0 < w) (hh : 0 < h) (s : ℤ) :
    0 < (effective_size w h s).1 ∧ 0 < (effective_size w h s).2 := by
  unfold effective_size
  split <;> exact ⟨by assumption, by assumption⟩

/-- C3: for positive display and image sizes, the fit zoom computed at
src/main.rs line 221 equals `min(display_w / eff_w, display_h / eff_h)`
where the effective size swaps the image's axes exactly when
`rotation_steps` is odd; consequently the zoomed effective size fits the
display in both axes and exactly matches it in at least one (the exact
rational statement, which implies the spec's epsilon tolerances). -/
theorem fit_zoom_correct (dw dh fw fh : ℚ) (s : ℤ)
    (hdw : 0 < dw) (hdh : 0 < dh) (hfw : 0 < fw) (hfh : 0 < fh) :
    effective_size fw fh s = (if Odd s then (fh, fw) else (fw, fh)) ∧
    fit_zoom dw dh (effective_size fw fh s).1 (effective_size fw fh s).2 =
      min (dw / (effective_size fw fh s).1) (dh / (effective_size fw fh s).2) ∧
    fit_zoom dw dh (effective_size fw fh s).1 (effective_size fw fh s).2 *
      (effective_size fw fh s).1 ≤ dw ∧
    fit_zoom dw dh (effective_size fw fh s).1 (effective_size fw fh s).2 *
      (effective_size fw fh s).2 ≤ dh ∧
    (fit_zoom dw dh (effective_size fw fh s).1 (effective_size fw fh s).2 *
        (effective_size fw fh s).1 = dw ∨
      fit_zoom dw dh (effective_size fw fh s).1 (effective_size fw fh s).2 *
        (effective_size fw fh s).2 = dh) := by
  obtain ⟨he1, he2⟩ := effective_size_pos hfw hfh s
  obtain ⟨hb1, hb2, hb3⟩ := fit_zoom_bounds hdw hdh he1 he2
  refine ⟨?_, rfl, hb1, hb2, hb3⟩
  unfold effective_size
  rcases Int.even_or_odd s with he | ho
  · simp [Int.even_iff.mp he, Int.not_odd_iff_even.mpr he]
  · simp [Int.odd_iff.mp ho, ho]

/-- Witness for C3 at display 200×100, image 50×50, no rotation. -/
theorem fit_zoom_correct_witness :
    ((0 : ℚ) < 200 ∧ (0 : ℚ) < 100 ∧ (0 : ℚ) < 50) ∧
    (effective_size 50 50 0 = (if Odd (0 : ℤ) then (50, 50) else (50, 50)) ∧
      fit_zoom 200 100 (effective_size 50 50 0).1 (effective_size 50 50 0).2 =
        min (200 / (effective_size 50 50 0).1) (100 / (effective_size 50 50 0).2) ∧
      fit_zoom 200 100 (effective_size 50 50 0).1 (effective_size 50 50 0).2 *
        (effective_size 50 50 0).1 ≤ 200 ∧
      fit_zoom 200 100 (effective_size 50 50 0).1 (effective_size 50 50 0).2 *
        (effective_size 50 50 0).2 ≤ 100 ∧
      (fit_zoom 200 100 (effective_size 50 50 0).1 (effective_size 50 50 0).2 *
          (effective_size 50 50 0).1 = 200 ∨
        fit_zoom 200 100 (effective_size 50 50 0).1 (effective_size 50 50 0).2 *
          (effective_size 50 50 0).2 = 100)) :=
  ⟨⟨by norm_num, by norm_num, by norm_num⟩,
    fit_zoom_correct 200 100 50 50 0
      (by norm_num) (by norm_num) (by norm_num) (by norm_num)⟩

/-- C4: the scroll-zoom operation multiplies zoom by `f` and subtracts
`(p - center) * (f - 1)` from the offset, `center = display_center +
offset` taken before the update; consequently the source-space point
that projected to the cursor position `p` before the operation still
projects to `p` after it. -/
theorem zoom_at_fixed_point (offset p dc fs q : ℚ × ℚ) (zoom f : ℚ) (s : ℤ)
    (_hz : 0 < zoom) (_hf : 0 < f)
    (hq : screenOf offset zoom s dc fs q = p) :
    (zoom_at offset zoom dc p f).2 = zoom * f ∧
    (zoom_at offset zoom dc p f).1 =
      offset - (f - 1) • (p - (dc + offset)) ∧
    screenOf (zoom_at offset zoom dc p f).1 (zoom_at offset zoom dc p f).2
      s dc fs q = p := by
  refine ⟨rfl, rfl, ?_⟩
  revert hq
  unfold screenOf zoom_at
  generalize rot2 s (q - (1 / 2 : ℚ) • fs) = v
  obtain ⟨vx, vy⟩ := v
  obtain ⟨dcx, dcy⟩ := dc
  obtain ⟨ox, oy⟩ := offset
  obtain ⟨px, py⟩ := p
  simp only [Prod.mk_add_mk, Prod.smul_mk, Prod.mk_sub_mk, smul_eq_mul,
    Prod.mk.injEq, and_imp]
  intro h1 h2
  constructor
  · linear_combination f * h1
  · linear_combination f * h2

/-- Witness for C4 at a concrete state: offset (1,2), zoom 2, one
quarter turn, display centre (50,60), image size (100,80), source point
(10,20), zoom factor 3. -/
theorem zoom_at_fixed_point_witness :
    ((0 : ℚ) < 2 ∧ (0 : ℚ) < 3) ∧
    ((zoom_at (1, 2) 2 (50, 60)
        (screenOf (1, 2) 2 1 (50, 60) (100, 80) (10, 20)) 3).2 = 2 * 3 ∧
      (zoom_at (1, 2) 2 (50, 60)
          (screenOf (1, 2) 2 1 (50, 60) (100, 80) (10, 20)) 3).1 =
        (1, 2) - ((3 : ℚ) - 1) •
          (screenOf (1, 2) 2 1 (50, 60) (100, 80) (10, 20) - ((50, 60) + (1, 2))) ∧
      screenOf
        (zoom_at (1, 2) 2 (50, 60)
          (screenOf (1, 2) 2 1 (50, 60) (100, 80) (10, 20)) 3).1
        (zoom_at (1, 2) 2 (50, 60)
          (screenOf (1, 2) 2 1 (50, 60) (100, 80) (10, 20)) 3).2
        1 (50, 60) (100, 80) (10, 20) =
        screenOf (1, 2) 2 1 (50, 60) (100, 80) (10, 20)) :=
  ⟨⟨by norm_num, by norm_num⟩,
    zoom_at_fixed_point (1, 2) (screenOf (1, 2) 2 1 (50, 60) (100, 80) (10, 20))
      (50, 60) (100, 80) (10, 20) 2 3 1 (by norm_num) (by norm_num) rfl⟩

lemma ReachableSteps.bounds {s : ℤ} (h : ReachableSteps s) :
    0 ≤ s ∧ s < 4 := by
  induction h with
  | init => omega
  | rotate s hs ih =>
    obtain ⟨h1, h2⟩ := ih
    unfold rotate_cw
    interval_cases s <;> decide
  | reset s hs ih => omega

/-- C5: for every reachable value of `rotation_steps`, applying the
rotate-clockwise operation four times returns `rotation_steps` to its
original value, and hence returns the effective (rotation-adjusted)
size to its original orientation. -/
theorem rotate_cw_four_cycle (s : ℤ) (h : ReachableSteps s) (fw fh : ℚ) :
    rotate_cw (rotate_cw (rotate_cw (rotate_cw s))) = s ∧
    effective_size fw fh (rotate_cw (rotate_cw (rotate_cw (rotate_cw s)))) =
      effective_size fw fh s := by
  obtain ⟨h1, h2⟩ := h.bounds
  have hs : rotate_cw (rotate_cw (rotate_cw (rotate_cw s))) = s := by
    unfold rotate_cw
    interval_cases s <;> decide
  exact ⟨hs, by rw [hs]⟩

/-- Witness for C5 at the initial state `rotation_steps = 0` and image
size 3×5. -/
theorem rotate_cw_four_cycle_witness :
    ReachableSteps 0 ∧
    (rotate_cw (rotate_cw (rotate_cw (rotate_cw 0))) = 0 ∧
      effective_size 3 5 (rotate_cw (rotate_cw (rotate_cw (rotate_cw 0)))) =
        effective_size 3 5 0) :=
  ⟨ReachableSteps.init, rotate_cw_four_cycle 0 ReachableSteps.init 3 5⟩

lemma position_lt_length {α : Type} {p : α → Bool} {l : List α} {i : Nat}
    (h : position p l = some i) : i < l.length := by
  induction l generalizing i with
  | nil => simp [position] at h
  | cons a as ih =>
    simp only [position] at h
    split at h
    · simp only [Option.some.injEq] at h
      simp [← h]
    · rw [Option.map_eq_some'] at h
      obtain ⟨j, hj, rfl⟩ := h
      have := ih hj
      simp only [List.length_cons]
      omega

lemma position_eq_none {cur : String} {l : List String} (h : cur ∉ l) :
    position (fun p => p == cur) l = none := by
  induction l with
  | nil => rfl
  | cons a as ih =>
    simp only [List.mem_cons, not_or] at h
    obtain ⟨h1, h2⟩ := h
    have hne : (a == cur) = false :=
      beq_eq_false_iff_ne.mpr (fun hh => h1 hh.symm)
    simp [position, hne, ih h2]

/-- C6: when the album contains the current path (first found at index
`i`), `preload` resolves the target index as `(i + delta)` under the
Euclidean (floored, for this positive modulus) remainder by the album
length; Next from the last index wraps to index 0, Previous from index 0
wraps to the last index, and on the album `[a.png, b.png, c.png]` with
current `b.png`, Next resolves `c.png` and Previous resolves `a.png`. -/
theorem preload_navigation (album : List String) (cur : String) (i : Nat)
    (h : position (fun p => p == cur) album = some i) :
    (∀ delta : ℤ, preloadTarget album cur delta =
      some (album.getD ((((i : ℤ) + delta) % (album.length : ℤ)).toNat) "")) ∧
    (i + 1 = album.length → preloadTarget album cur 1 =
      some (album.getD 0 "")) ∧
    (i = 0 → preloadTarget album cur (-1) =
      some (album.getD (album.length - 1) "")) ∧
    preloadTarget ["a.png", "b.png", "c.png"] "b.png" 1 = some "c.png" ∧
    preloadTarget ["a.png", "b.png", "c.png"] "b.png" (-1) = some "a.png" := by
  have hlen : i < album.length := position_lt_length h
  refine ⟨?_, ?_, ?_, by decide, by decide⟩
  · intro delta
    simp [preloadTarget, h]
  · intro hi
    have he : ((i : ℤ) + 1) % (album.length : ℤ) = 0 := by
      have hc : ((i : ℤ) + 1) = (album.length : ℤ) := by omega
      rw [hc, Int.emod_self]
    simp [preloadTarget, h, he]
  · intro hi
    subst hi
    have hl0 : (0 : ℤ) < (album.length : ℤ) := by omega
    have h3 : ((album.length : ℤ) - 1 + (album.length : ℤ) * (-1)) = -1 := by
      ring
    have h1 := Int.add_mul_emod_self_left
      ((album.length : ℤ) - 1) (album.length : ℤ) (-1)
    rw [h3] at h1
    have h2 : ((album.length : ℤ) - 1) % (album.length : ℤ) =
        (album.length : ℤ) - 1 :=
      Int.emod_eq_of_lt (by omega) (by omega)
    have he : ((-1 : ℤ) % (album.length : ℤ)).toNat = album.length - 1 := by
      rw [h1, h2]
      omega
    simp [preloadTarget, h, he]

/-- Witness for C6 on the album `[a.png, b.png, c.png]` with current
path `b.png`, found at index 1. -/
theorem preload_navigation_witness :
    position (fun p => p == "b.png") ["a.png", "b.png", "c.png"] = some 1 ∧
    ((∀ delta : ℤ, preloadTarget ["a.png", "b.png", "c.png"] "b.png" delta =
      some (["a.png", "b.png", "c.png"].getD
        (((((1 : ℕ) : ℤ) + delta) %
          ((["a.png", "b.png", "c.png"].length : ℕ) : ℤ)).toNat) "")) ∧
    (1 + 1 = ["a.png", "b.png", "c.png"].length →
      preloadTarget ["a.png", "b.png", "c.png"] "b.png" 1 =
        some (["a.png", "b.png", "c.png"].getD 0 "")) ∧
    ((1 : ℕ) = 0 → preloadTarget ["a.png", "b.png", "c.png"] "b.png" (-1) =
      some (["a.png", "b.png", "c.png"].getD
        (["a.png", "b.png", "c.png"].length - 1) "")) ∧
    preloadTarget ["a.png", "b.png", "c.png"] "b.png" 1 = some "c.png" ∧
    preloadTarget ["a.png", "b.png", "c.png"] "b.png" (-1) = some "a.png") :=
  ⟨by decide, preload_navigation ["a.png", "b.png", "c.png"] "b.png" 1 (by decide)⟩

/-- C7 (amended): the toggle operation (identical at the double-click
and F-key sites) sets zoom to 1.0 when the current zoom is within 0.01
of the fit zoom and to the fit zoom otherwise, and resets the offset to
zero, and an `update` frame whose only event is a double-click (or the F
key) performs exactly this operation; applying the toggle twice with no
intervening state change returns zoom to its pre-first-call value in the
two standard directions — starting exactly at the fit zoom, or starting
exactly at 1.0 — provided 1.0 is not itself within 0.01 of the fit zoom;
it does not do so from an arbitrary starting zoom. -/
theorem toggle_fit_or_100_roundtrip (fz : ℚ) (h : ¬ |1 - fz| < 1 / 100)
    (expFn : ℚ → ℚ) (st : Viewer) (dw dh : ℚ) (dc : ℚ × ℚ)
    (hff : st.first_frame = false) :
    (∀ z : ℚ, toggle_zoom z fz = if |z - fz| < 1 / 100 then 1 else fz) ∧
    (updateFrame expFn st none { noInput with doubleClick := true } dw dh dc).1.zoom
      = toggle_zoom st.zoom
          (fit_zoom dw dh
            (effective_size st.full_size.1 st.full_size.2 st.rotation_steps).1
            (effective_size st.full_size.1 st.full_size.2 st.rotation_steps).2) ∧
    (updateFrame expFn st none { noInput with doubleClick := true } dw dh dc).1.offset
      = 0 ∧
    (updateFrame expFn st none { noInput with keyF := true } dw dh dc).1.zoom
      = toggle_zoom st.zoom
          (fit_zoom dw dh
            (effective_size st.full_size.1 st.full_size.2 st.rotation_steps).1
            (effective_size st.full_size.1 st.full_size.2 st.rotation_steps).2) ∧
    (updateFrame expFn st none { noInput with keyF := true } dw dh dc).1.offset
      = 0 ∧
    toggle_zoom (toggle_zoom fz fz) fz = fz ∧
    toggle_zoom (toggle_zoom 1 fz) fz = 1 := by
  have h0 : toggle_zoom fz fz = 1 := by
    unfold toggle_zoom
    rw [sub_self, abs_zero, if_pos (by norm_num)]
  have h1 : toggle_zoom 1 fz = fz := by
    unfold toggle_zoom
    rw [if_neg h]
  refine ⟨fun z => rfl, ?_, ?_, ?_, ?_, ?_, ?_⟩
  · simp [updateFrame, applyPoll, noInput, hff]
  · simp [updateFrame, applyPoll, noInput, hff]
  · simp [updateFrame, applyPoll, noInput, hff]
  · simp [updateFrame, applyPoll, noInput, hff]
  · rw [h0, h1]
  · rw [h1, h0]

/-- Counterexample to C7 as stated: with fit zoom 2 and current zoom 3,
applying the toggle twice brings zoom to 1, not to its pre-first-call
value 3 (the first call lands on the fit zoom, so the second lands on
1.0). -/
theorem toggle_fit_or_100_counterexample :
    toggle_zoom (toggle_zoom 3
        (fit_zoom 200 200 (effective_size 100 100 0).1 (effective_size 100 100 0).2))
      (fit_zoom 200 200 (effective_size 100 100 0).1 (effective_size 100 100 0).2)
      ≠ 3 := by
  have hfz : fit_zoom 200 200 (effective_size 100 100 0).1
      (effective_size 100 100 0).2 = 2 := by
    norm_num [fit_zoom, effective_size]
  rw [hfz]
  norm_num [toggle_zoom, abs_sub_lt_iff]

/-- Witness for C7 (amended) with fit zoom 5 and a viewer state whose
first frame has passed. -/
theorem toggle_fit_or_100_roundtrip_witness :
    (¬ |1 - (5 : ℚ)| < 1 / 100) ∧ viewerA.first_frame = false ∧
    ((∀ z : ℚ, toggle_zoom z 5 = if |z - 5| < 1 / 100 then 1 else 5) ∧
      (updateFrame (fun q => q) viewerA none
        { noInput with doubleClick := true } 200 100 (0, 0)).1.zoom
        = toggle_zoom viewerA.zoom
            (fit_zoom 200 100
              (effective_size viewerA.full_size.1 viewerA.full_size.2
                viewerA.rotation_steps).1
              (effective_size viewerA.full_size.1 viewerA.full_size.2
                viewerA.rotation_steps).2) ∧
      (updateFrame (fun q => q) viewerA none
        { noInput with doubleClick := true } 200 100 (0, 0)).1.offset = 0 ∧
      (updateFrame (fun q => q) viewerA none
        { noInput with keyF := true } 200 100 (0, 0)).1.zoom
        = toggle_zoom viewerA.zoom
            (fit_zoom 200 100
              (effective_size viewerA.full_size.1 viewerA.full_size.2
                viewerA.rotation_steps).1
              (effective_size viewerA.full_size.1 viewerA.full_size.2
                viewerA.rotation_steps).2) ∧
      (updateFrame (fun q => q) viewerA none
        { noInput with keyF := true } 200 100 (0, 0)).1.offset = 0 ∧
      toggle_zoom (toggle_zoom 5 5) 5 = 5 ∧
      toggle_zoom (toggle_zoom 1 5) 5 = 1) :=
  ⟨by norm_num, rfl,
    toggle_fit_or_100_roundtrip 5 (by norm_num) (fun q => q) viewerA
      200 100 (0, 0) rfl⟩

/-- C8: a background navigation load whose decode fails sends nothing
through the channel (the decode failure panics only the worker thread,
modelled as the worker producing no message) — no error value crosses
the channel — and polling an empty channel leaves the whole viewer
state, in particular the displayed tiles and the current path,
unchanged. -/
theorem failed_preload_harmless (path : String) (st : Viewer) :
    workerLoad none path = none ∧
    applyPoll st (workerLoad none path) = st ∧
    (applyPoll st (workerLoad none path)).tiles = st.tiles ∧
    (applyPoll st (workerLoad none path)).current_path = st.current_path :=
  ⟨rfl, rfl, rfl, rfl⟩

/-- C9 (amended): applying a completed background load replaces tiles,
full size and current path together, resets offset and rotation to
zero, arms the `first_frame` deferral flag, and leaves zoom, album and
the about-window flag unchanged; zoom is then set to the fit zoom later
within the same frame when the display width exceeds 1, and otherwise
stays unchanged with the deferral flag still armed for a later frame. -/
theorem applyPoll_resets_viewport (st : Viewer) (l : LoadedImage)
    (expFn : ℚ → ℚ) (dw dh : ℚ) (dc : ℚ × ℚ) :
    (applyPoll st (some l)).tiles = l.tiles ∧
    (applyPoll st (some l)).full_size = l.full_size ∧
    (applyPoll st (some l)).current_path = l.path ∧
    (applyPoll st (some l)).offset = 0 ∧
    (applyPoll st (some l)).rotation_steps = 0 ∧
    (applyPoll st (some l)).zoom = st.zoom ∧
    (applyPoll st (some l)).first_frame = true ∧
    (applyPoll st (some l)).album = st.album ∧
    (applyPoll st (some l)).show_about = st.show_about ∧
    (1 < dw →
      (updateFrame expFn st (some l) noInput dw dh dc).1.zoom =
        fit_zoom dw dh l.full_size.1 l.full_size.2 ∧
      (updateFrame expFn st (some l) noInput dw dh dc).1.first_frame = false) ∧
    (¬ 1 < dw →
      (updateFrame expFn st (some l) noInput dw dh dc).1.zoom = st.zoom ∧
      (updateFrame expFn st (some l) noInput dw dh dc).1.first_frame = true) := by
  refine ⟨rfl, rfl, rfl, rfl, rfl, rfl, rfl, rfl, rfl, ?_, ?_⟩
  · intro hdw
    constructor <;>
      simp [updateFrame, applyPoll, noInput, effective_size, fit_zoom, hdw]
  · intro hdw
    constructor <;>
      simp [updateFrame, applyPoll, noInput, effective_size, fit_zoom, hdw]

/-- Counterexample to C9 as stated: the fit zoom is not deferred to the
next frame — in the very frame that applies the loaded image (display
200×200, width over 1), zoom already equals the fit zoom 2 rather than
its prior value 1. -/
theorem applyPoll_defer_counterexample :
    (updateFrame (fun q => q) viewerA (some loadedA) noInput
      200 200 (0, 0)).1.zoom = 2 ∧
    viewerA.zoom = 1 ∧ (2 : ℚ) ≠ 1 := by
  refine ⟨?_, rfl, by norm_num⟩
  norm_num [updateFrame, applyPoll, noInput, effective_size, fit_zoom,
    viewerA, loadedA]

/-- Witness for C9 (amended) at the concrete state `viewerA` receiving
`loadedA` with display 200×100. -/
theorem applyPoll_resets_viewport_witness :
    (applyPoll viewerA (some loadedA)).tiles = loadedA.tiles ∧
    (applyPoll viewerA (some loadedA)).full_size = loadedA.full_size ∧
    (applyPoll viewerA (some loadedA)).current_path = loadedA.path ∧
    (applyPoll viewerA (some loadedA)).offset = 0 ∧
    (applyPoll viewerA (some loadedA)).rotation_steps = 0 ∧
    (applyPoll viewerA (some loadedA)).zoom = viewerA.zoom ∧
    (applyPoll viewerA (some loadedA)).first_frame = true ∧
    (applyPoll viewerA (some loadedA)).album = viewerA.album ∧
    (applyPoll viewerA (some loadedA)).show_about = viewerA.show_about ∧
    (1 < (200 : ℚ) →
      (updateFrame (fun q => q) viewerA (some loadedA) noInput
        200 100 (0, 0)).1.zoom =
        fit_zoom 200 100 loadedA.full_size.1 loadedA.full_size.2 ∧
      (updateFrame (fun q => q) viewerA (some loadedA) noInput
        200 100 (0, 0)).1.first_frame = false) ∧
    (¬ 1 < (200 : ℚ) →
      (updateFrame (fun q => q) viewerA (some loadedA) noInput
        200 100 (0, 0)).1.zoom = viewerA.zoom ∧
      (updateFrame (fun q => q) viewerA (some loadedA) noInput
        200 100 (0, 0)).1.first_frame = true) :=
  applyPoll_resets_viewport viewerA loadedA (fun q => q) 200 100 (0, 0)

/-- C10: when the current path is not a member of the album (an empty
album included), navigation in either direction is a no-op: the viewer
state is unchanged, no target is resolved, and an update frame with
both arrow keys pressed spawns no background load at all. -/
theorem navigate_out_of_album (st : Viewer) (delta : ℤ) (expFn : ℚ → ℚ)
    (dw dh : ℚ) (dc : ℚ × ℚ) (h : st.current_path ∉ st.album) :
    navigate st delta = (st, none) ∧
    (updateFrame expFn st none
      { noInput with arrowRight := true, arrowLeft := true } dw dh dc).2
      = [] := by
  have hp : position (fun p => p == st.current_path) st.album = none :=
    position_eq_none h
  constructor
  · unfold navigate preloadTarget
    rw [hp]
    rfl
  · simp [updateFrame, applyPoll, noInput, preloadTarget, hp]

/-- Witness for C10 at the concrete state `viewerB`, whose current path
`z.png` is not in its album. -/
theorem navigate_out_of_album_witness :
    viewerB.current_path ∉ viewerB.album ∧
    (navigate viewerB 1 = (viewerB, none) ∧
      (updateFrame (fun q => q) viewerB none
        { noInput with arrowRight := true, arrowLeft := true }
        200 100 (0, 0)).2 = []) :=
  ⟨by decide, navigate_out_of_album viewerB 1 (fun q => q) 200 100 (0, 0)
    (by decide)⟩
